import Mathlib

/-!
Shallow embedding of src/main.py, a single-file bot that polls three RSS
feeds of a subreddit (new / hot / top), extracts direct image URLs from the
entries, filters previously seen identifiers and blocklisted titles, posts
the images as Discord webhook embeds in batches of ten, and persists the
per-bucket seen lists (capped at 4000) to a JSON state file.

Python strings are modelled as Lean String; string primitives that the
source uses (lower, strip, replace, startswith, os.path.splitext) are
modelled at the character-list level so that their behaviour is fully
explicit.  Fallible I/O (state file, HTTP) is modelled by explicit inputs:
the state file is an optional parsed dictionary, the feeds are a function
from bucket to entry list, and the webhook is a trace of responses per
outbound call.
-/

namespace RssBot

/-! ## Configuration constants (src/main.py lines 15-21) -/

def EMBEDS_PER_MESSAGE : Nat := 10

def EMBED_COLOR_RED : Nat := 0xFF0000

def IMAGE_EXTS : List String := [".jpg", ".jpeg", ".png", ".gif", ".webp"]

def BLOCKLIST_TERMS : List String :=
  ["loli", "lolicon", "shota", "shotacon", "underage", "minor", "kid",
   "child", "middle school", "elementary"]

/-- Required shape of the webhook URL (src/main.py line 124). -/
def webhookUrlStart : String := "https://discord.com/api/webhooks/"

/-! ## Python string primitives, modelled on character lists -/

/-- Model of Python str.lower (ASCII case folding, as Char.toLower). -/
def pyLower (s : String) : String := ⟨s.data.map Char.toLower⟩

/-- Model of Python str.strip with no argument: remove whitespace from both
ends. -/
def pyStrip (s : String) : String :=
  ⟨((s.data.dropWhile Char.isWhitespace).reverse.dropWhile Char.isWhitespace).reverse⟩

/-- Model of Python str.replace for the single pattern used by the source,
u.replace with the five characters of the amp entity replaced by the
ampersand: left-to-right, non-overlapping. -/
def replaceAmp : List Char → List Char
  | '&' :: 'a' :: 'm' :: 'p' :: ';' :: rest => '&' :: replaceAmp rest
  | c :: rest => c :: replaceAmp rest
  | [] => []

/-- normalize_url (src/main.py lines 56-57). -/
def normalize_url (u : String) : String := ⟨replaceAmp u.data⟩

/-- Model of Python str.startswith as a check on character lists. -/
def pyStartsWith (s start : String) : Bool := start.data.isPrefixOf s.data

/-- The last path component of a character list: everything after the last
slash (the whole list when there is no slash). -/
def lastComponent (cs : List Char) : List Char :=
  (cs.reverse.takeWhile (fun c => c ≠ '/')).reverse

/-- Model of the extension part of os.path.splitext for POSIX paths: the
substring from the last dot of the last path component, provided some
earlier character of that component is not a dot (so dotfiles such as
.bashrc have no extension). -/
def splitextExt (cs : List Char) : List Char :=
  let base := lastComponent cs
  let afterDotRev := base.reverse.takeWhile (fun c => c ≠ '.')
  if afterDotRev.length = base.length then []
  else
    let stem := base.take (base.length - afterDotRev.length - 1)
    if stem.any (fun c => c ≠ '.') then '.' :: afterDotRev.reverse else []

/-- guess_ext (src/main.py lines 72-74): strip the query string and the
fragment, then lowercase the splitext extension. -/
def guess_ext (url : String) : String :=
  let u := (url.data.takeWhile (fun c => c ≠ '?')).takeWhile (fun c => c ≠ '#')
  ⟨(splitextExt u).map Char.toLower⟩

/-! ## Feed entries (parsed feedparser objects, per spec section 9 modelled
as explicit optional-field structures) -/

/-- One media_content item: a dict that may carry a url. -/
structure MediaItem where
  url : Option String
deriving DecidableEq

/-- An HTML tag relevant to extract_urls_from_html: an img with an optional
src, an anchor with an optional href, or anything else.  The source parses
HTML strings with BeautifulSoup; here the content arrives pre-parsed as a
tag list. -/
inductive Tag where
  | img (src : Option String)
  | anchor (href : Option String)
  | other
deriving DecidableEq

/-- A parsed HTML document, as the sequence of its tags. -/
abbrev Html := List Tag

/-- One content item: a dict that may carry a value (an HTML body). -/
structure ContentItem where
  value : Option Html
deriving DecidableEq

/-- A feed entry with the optional fields the source probes via getattr. -/
structure Entry where
  id : Option String
  link : Option String
  title : Option String
  media_content : Option (List MediaItem)
  content : Option (List ContentItem)
  summary : Option Html
deriving DecidableEq

/-- Python truthiness of an optional string: None and the empty string are
falsy. -/
def pyTruthy (o : Option String) : Option String :=
  match o with
  | some s => if s = "" then none else some s
  | none => none

/-- entry_uid (src/main.py lines 46-47): id, else link, else title with
default unknown, chained with Python or (falsy empty strings fall
through). -/
def entry_uid (e : Entry) : String :=
  match pyTruthy e.id with
  | some s => s
  | none =>
    match pyTruthy e.link with
    | some s => s
    | none => e.title.getD "unknown"

/-- entry_title (src/main.py lines 49-50): the title attribute, with None
coerced to the empty string, stripped. -/
def entry_title (e : Entry) : String := pyStrip (e.title.getD "")

/-- title_blocked (src/main.py lines 52-54): lowercase the title and test
each blocklist term for substring containment. -/
def title_blocked (title : String) : Bool :=
  let t := pyLower title
  BLOCKLIST_TERMS.any (fun term => decide (term.data <:+: t.data))

/-- extract_urls_from_html (src/main.py lines 59-70): all truthy img src
values, in order, followed by all truthy anchor href values, in order. -/
def extract_urls_from_html (h : Html) : List String :=
  (h.filterMap fun t =>
    match t with
    | .img (some s) => if s = "" then none else some s
    | _ => none)
  ++ (h.filterMap fun t =>
    match t with
    | .anchor (some s) => if s = "" then none else some s
    | _ => none)

/-- The media_content candidates of pick_media_url (src/main.py lines
78-83): each truthy url of each media item. -/
def mediaUrls (e : Entry) : List String :=
  match e.media_content with
  | some ms => ms.filterMap fun m =>
      match m.url with
      | some u => if u = "" then none else some u
      | none => none
  | none => []

/-- The content-body candidates of pick_media_url (src/main.py lines
84-86): urls scraped from the value of the first content item, when the
content list is non-empty. -/
def contentUrls (e : Entry) : List String :=
  match e.content with
  | some (c :: _) => extract_urls_from_html (c.value.getD [])
  | _ => []

/-- The summary candidates of pick_media_url (src/main.py lines 87-89). -/
def summaryUrls (e : Entry) : List String :=
  match e.summary with
  | some h => extract_urls_from_html h
  | none => []

/-- One step of the dedup loop of pick_media_url (src/main.py lines
90-96): normalize the candidate and append it unless already kept. -/
def dedupStep (acc : List String) (u : String) : List String :=
  let u2 := normalize_url u
  if u2 ∈ acc then acc else acc ++ [u2]

/-- pick_media_url (src/main.py lines 76-100): gather candidates in
priority order, normalize and deduplicate keeping first occurrences, and
return the first candidate with an image extension. -/
def pick_media_url (e : Entry) : Option String :=
  let candidates := mediaUrls e ++ contentUrls e ++ summaryUrls e
  let cleaned := candidates.foldl dedupStep []
  cleaned.find? (fun u => decide (guess_ext u ∈ IMAGE_EXTS))

/-! ## State store (src/main.py lines 23-40) -/

/-- A JSON value stored under a key of the state dictionary: a list (whose
elements the program treats as identifiers) or any non-list value. -/
inductive JVal where
  | list (items : List String)
  | nonlist
deriving DecidableEq

/-- A parsed JSON dictionary, as an association list with unique keys (as
produced by a JSON parser). -/
abbrev Dict := List (String × JVal)

/-- Model of Python dict assignment d with key k set to v: replace the
binding of k if present, else append it. -/
def dictSet : Dict → String → JVal → Dict
  | [], k, v => [(k, v)]
  | (k0, v0) :: rest, k, v =>
    if k0 = k then (k, v) :: rest else (k0, v0) :: dictSet rest k v

/-- Model of Python dict lookup d[k] (and of the membership test k in d):
the value bound to the first occurrence of k, if any. -/
def dictGet : Dict → String → Option JVal
  | [], _ => none
  | (k0, v) :: rest, k => if k0 = k then some v else dictGet rest k

/-- One iteration of the key-fixing loop of load_state (src/main.py lines
29-31): when key k is absent or bound to a non-list, bind it to the empty
list. -/
def fixKey (d : Dict) (k : String) : Dict :=
  match dictGet d k with
  | some (.list _) => d
  | _ => dictSet d k (.list [])

/-- load_state (src/main.py lines 23-34).  The input is none when the
state file is missing, fails to parse, or does not hold a dictionary (any
exception inside the try block, which the function catches); otherwise it
is the parsed dictionary.  The function never raises: it is total. -/
def load_state (file : Option Dict) : Dict :=
  match file with
  | none => [("new", .list []), ("hot", .list []), ("top", .list [])]
  | some d => fixKey (fixKey (fixKey d "new") "hot") "top"

/-- The three feed buckets. -/
inductive Bucket where
  | new | hot | top
deriving DecidableEq

/-- The in-memory state used by main: the three bucket lists of the loaded
dictionary (keys other than the three bucket keys are never read or
modified by the program, so they are not tracked). -/
structure St where
  new : List String
  hot : List String
  top : List String
deriving DecidableEq

def St.get (st : St) : Bucket → List String
  | .new => st.new
  | .hot => st.hot
  | .top => st.top

def St.set (st : St) : Bucket → List String → St
  | .new, l => { st with new := l }
  | .hot, l => { st with hot := l }
  | .top, l => { st with top := l }

/-- The list bound to key k of a dictionary, when it is a list. -/
def bucketList (d : Dict) (k : String) : List String :=
  match dictGet d k with
  | some (.list l) => l
  | _ => []

/-- Project the loaded dictionary onto the three bucket lists. -/
def St.ofDict (d : Dict) : St :=
  ⟨bucketList d "new", bucketList d "hot", bucketList d "top"⟩

/-- The dictionary written for a state (the three bucket keys in the order
load_state establishes for an initially empty state). -/
def St.toDict (st : St) : Dict :=
  [("new", .list st.new), ("hot", .list st.hot), ("top", .list st.top)]

/-- Model of the Python slice keeping the last n elements of a list (the
whole list when it is shorter). -/
def lastSlice (n : Nat) (l : List α) : List α := l.drop (l.length - n)

/-- save_state (src/main.py lines 36-40): truncate each bucket list to its
last 4000 entries and write the result. -/
def save_state (st : St) : St :=
  { new := lastSlice 4000 st.new,
    hot := lastSlice 4000 st.hot,
    top := lastSlice 4000 st.top }

/-! ## Publisher (src/main.py lines 102-121) -/

/-- One webhook response, as observed by discord_post_embeds: a 429 whose
body yields a retry_after duration (none when the body cannot be parsed as
a float), a success (raise_for_status passes), or any other failure
(non-2xx status or network exception). -/
inductive Resp where
  | rateLimited (retryAfter : Option ℚ)
  | ok
  | failure
deriving DecidableEq

/-- discord_post_embeds (src/main.py lines 102-118), over the trace of
responses the webhook returns for the successive attempts of this one
call.  Returns the sleep durations performed, in order, and the number of
successful deliveries of the batch (the loop returns right after the first
success or the first non-rate-limit failure). -/
def discord_post_embeds : List Resp → List ℚ × Nat
  | [] => ([], 0)
  | .rateLimited ra :: rest =>
    let w := ra.getD 1
    let r := discord_post_embeds rest
    (w :: r.1, r.2)
  | .ok :: _ => ([], 1)
  | .failure :: _ => ([], 0)

/-- A Discord embed as built by make_image_only_embed. -/
structure Embed where
  color : Nat
  image_url : String
deriving DecidableEq

/-- make_image_only_embed (src/main.py lines 120-121). -/
def make_image_only_embed (u : String) : Embed := ⟨EMBED_COLOR_RED, u⟩

/-! ## Orchestrator (src/main.py lines 123-173) -/

/-- The outcome of one entry of the per-bucket loop (src/main.py lines
146-157): which branch ended its processing.  The blockedTitle branch is
observable through the skip log line. -/
inductive Outcome where
  | alreadySeen | blockedTitle | noMedia | duplicateMerged | recorded
deriving DecidableEq

/-- The merged mapping from entry identifier to media URL, in insertion
order (Python dicts preserve insertion order). -/
abbrev Merged := List (String × String)

/-- One iteration of the entry loop (src/main.py lines 146-157): skip
identifiers already seen in this bucket, else append the identifier to the
bucket seen list, then skip blocked non-empty titles, then extract media
and record it under the identifier unless the identifier already produced
a merged item. -/
def processEntry (b : Bucket) (st : St) (merged : Merged) (e : Entry) :
    St × Merged × Outcome :=
  let uid := entry_uid e
  if uid ∈ st.get b then (st, merged, .alreadySeen)
  else
    let st2 := st.set b (st.get b ++ [uid])
    let title := entry_title e
    if title ≠ "" ∧ title_blocked title then (st2, merged, .blockedTitle)
    else
      match pick_media_url e with
      | none => (st2, merged, .noMedia)
      | some m =>
        if uid ∈ merged.map Prod.fst then (st2, merged, .duplicateMerged)
        else (st2, merged ++ [(uid, m)], .recorded)

/-- The entry loop over one bucket. -/
def processBucket (b : Bucket) (acc : St × Merged) (entries : List Entry) :
    St × Merged :=
  entries.foldl (fun acc e =>
    let r := processEntry b acc.1 acc.2 e
    (r.1, r.2.1)) acc

/-- Processing order of a bucket (src/main.py lines 144-145): the new
bucket is reversed, hot and top keep feed order. -/
def orderEntries (b : Bucket) (es : List Entry) : List Entry :=
  if b = .new then es.reverse else es

/-- The three bucket loops of main (src/main.py lines 137-157), in order
new, hot, top, threading the state and the merged mapping. -/
def runBuckets (st : St) (feeds : Bucket → List Entry) : St × Merged :=
  processBucket .top
    (processBucket .hot
      (processBucket .new (st, []) (orderEntries .new (feeds .new)))
      (orderEntries .hot (feeds .hot)))
    (orderEntries .top (feeds .top))

/-- The batch-and-post loop of main (src/main.py lines 159-171): buf is
the embeds buffer, sent the running counter; a batch is posted when the
buffer reaches EMBEDS_PER_MESSAGE, and a final non-empty buffer is posted
after the loop.  Returns the batches handed to the publisher, in order,
and the final sent counter. -/
def batchGo : List Embed → Nat → List Embed → List (List Embed) × Nat
  | buf, sent, [] => if buf.isEmpty then ([], sent) else ([buf], sent + buf.length)
  | buf, sent, e :: rest =>
    let buf2 := buf ++ [e]
    if EMBEDS_PER_MESSAGE ≤ buf2.length then
      let r := batchGo [] (sent + buf2.length) rest
      (buf2 :: r.1, r.2)
    else batchGo buf2 sent rest

/-- Environment-provided configuration (src/main.py lines 11-16). -/
structure Config where
  subreddit : String
  webhook_url : String
  max_per_run : Nat
deriving DecidableEq

/-- The configuration check of main (src/main.py lines 124-129) passes. -/
def validConfig (cfg : Config) : Bool :=
  pyStartsWith cfg.webhook_url webhookUrlStart && cfg.subreddit ≠ ""

/-- Number of publisher calls that succeed, given the response trace of
each call. -/
def countDelivered (batches : List (List Embed)) (resps : Nat → List Resp) : Nat :=
  ((List.range batches.length).filter
    (fun i => (discord_post_embeds (resps i)).2 == 1)).length

/-- The result of one run of main: an aborted configuration check with its
error line, or a finished run with the saved state, the batches handed to
the publisher, the number of batches delivered, and the reported sent
counter. -/
inductive RunOutcome where
  | configError (msg : String)
  | finished (saved : St) (batches : List (List Embed)) (delivered : Nat) (sent : Nat)
deriving DecidableEq

def RunOutcome.savedSt : RunOutcome → St
  | .configError _ => ⟨[], [], []⟩
  | .finished s _ _ _ => s

def RunOutcome.postedBatches : RunOutcome → List (List Embed)
  | .configError _ => []
  | .finished _ b _ _ => b

def RunOutcome.sentCount : RunOutcome → Nat
  | .configError _ => 0
  | .finished _ _ _ n => n

/-- The merged mapping a run computes before truncation (src/main.py lines
130-157). -/
def runMerged (stFile : Option Dict) (feeds : Bucket → List Entry) : Merged :=
  (runBuckets (St.ofDict (load_state stFile)) feeds).2

/-- The eligible items of a run, after truncation to the per-run maximum
(src/main.py line 158). -/
def runItems (cfg : Config) (stFile : Option Dict) (feeds : Bucket → List Entry) :
    Merged :=
  (runMerged stFile feeds).take cfg.max_per_run

/-- main (src/main.py lines 123-173): validate the configuration, load the
state, process the three buckets, truncate the merged items, batch and
post, save the truncated state, report the sent counter. -/
def main (cfg : Config) (stFile : Option Dict) (feeds : Bucket → List Entry)
    (resps : Nat → List Resp) : RunOutcome :=
  if ¬ pyStartsWith cfg.webhook_url webhookUrlStart then
    .configError "ERROR: DISCORD_WEBHOOK_URL secret is missing or invalid."
  else if cfg.subreddit = "" then
    .configError "ERROR: SUBREDDIT secret is missing."
  else
    let st2 := (runBuckets (St.ofDict (load_state stFile)) feeds).1
    let items := runItems cfg stFile feeds
    let bg := batchGo [] 0 (items.map fun it => make_image_only_embed it.2)
    .finished (save_state st2) bg.1 (countDelivered bg.1 resps) bg.2

/-! ## Basic state lemmas -/

theorem St.get_set_same (st : St) (b : Bucket) (l : List String) :
    (st.set b l).get b = l := by
  cases b <;> rfl

theorem St.get_set_other (st : St) (b b2 : Bucket) (l : List String) (h : b2 ≠ b) :
    (st.set b l).get b2 = st.get b2 := by
  cases b <;> cases b2 <;> first | rfl | exact absurd rfl h

theorem St.set_get_self (st : St) (b : Bucket) : st.set b (st.get b) = st := by
  cases b <;> rfl

theorem St.set_set (st : St) (b : Bucket) (l1 l2 : List String) :
    (st.set b l1).set b l2 = st.set b l2 := by
  cases b <;> rfl

/-! ## Per-entry processing lemmas -/

theorem processEntry_seen (b : Bucket) (st : St) (m : Merged) (e : Entry)
    (h : entry_uid e ∈ st.get b) :
    processEntry b st m e = (st, m, .alreadySeen) := by
  simp only [processEntry]
  rw [if_pos h]

theorem processEntry_fresh_state (b : Bucket) (st : St) (m : Merged) (e : Entry)
    (h : entry_uid e ∉ st.get b) :
    (processEntry b st m e).1 = st.set b (st.get b ++ [entry_uid e]) := by
  simp only [processEntry]
  rw [if_neg h]
  split
  · rfl
  · split <;> first | rfl | (split <;> rfl)

/-- Example entry: a blocked title together with a qualifying image. -/
def blockedEntry : Entry :=
  { id := some "p1", link := none, title := some "cute kid pic",
    media_content := some [⟨some "https://x/a.jpg"⟩], content := none,
    summary := none }

/-- Example entry with no title at all. -/
def noTitleEntry : Entry :=
  { id := some "p2", link := none, title := none,
    media_content := some [⟨some "https://x/a.jpg"⟩], content := none,
    summary := none }

/-- C1: an entry whose identifier is not yet in its bucket seen list gets
the identifier appended to exactly that bucket seen list, whatever the
title filter and the media extraction later decide (the appended list is
the same in the blocked, no-media, duplicate and recorded branches). -/
theorem c1_fresh_uid_appended (b : Bucket) (st : St) (m : Merged) (e : Entry)
    (h : entry_uid e ∉ st.get b) :
    ((processEntry b st m e).1).get b = st.get b ++ [entry_uid e]
    ∧ ∀ b2 : Bucket, b2 ≠ b → ((processEntry b st m e).1).get b2 = st.get b2 := by
  rw [processEntry_fresh_state b st m e h]
  exact ⟨St.get_set_same st b _, fun b2 hb2 => St.get_set_other st b b2 _ hb2⟩

/-- C1 witness: a fresh entry whose title is blocked still has its
identifier appended to the seen list of its bucket. -/
theorem c1_witness :
    ((processEntry .new ⟨[], [], []⟩ [] blockedEntry).1).get .new
      = [] ++ [entry_uid blockedEntry]
    ∧ (processEntry .new ⟨[], [], []⟩ [] blockedEntry).2.2 = Outcome.blockedTitle := by
  refine ⟨(c1_fresh_uid_appended .new ⟨[], [], []⟩ [] blockedEntry (by decide)).1, ?_⟩
  decide

/-! ## Truncation (claim C4) -/

theorem lastSlice_length (n : Nat) (l : List α) :
    (lastSlice n l).length = min l.length n := by
  simp only [lastSlice, List.length_drop]
  omega

theorem save_state_get (st : St) (b : Bucket) :
    (save_state st).get b = lastSlice 4000 (st.get b) := by
  cases b <;> simp [save_state, St.get]

/-- C4: after save_state, every bucket list has at most 4000 entries, is a
suffix of the original list (so the retained identifiers keep their
original order and are the most recently appended ones), and its length is
the minimum of the original length and 4000 (so exactly the last 4000 are
retained when the original was longer). -/
theorem c4_save_state_truncates (st : St) (b : Bucket) :
    ((save_state st).get b).length ≤ 4000
    ∧ (save_state st).get b <:+ st.get b
    ∧ ((save_state st).get b).length = min (st.get b).length 4000 := by
  rw [save_state_get]
  refine ⟨?_, List.drop_suffix _ _, lastSlice_length 4000 _⟩
  rw [lastSlice_length]
  omega

/-! ## Load-state lemmas (claim C5) -/

theorem dictGet_dictSet_same (d : Dict) (k : String) (v : JVal) :
    dictGet (dictSet d k v) k = some v := by
  induction d with
  | nil => simp [dictSet, dictGet]
  | cons p rest ih =>
    obtain ⟨k0, v0⟩ := p
    by_cases hk : k0 = k
    · simp [dictSet, dictGet, hk]
    · simp only [dictSet, if_neg hk, dictGet]
      exact ih

theorem dictGet_dictSet_ne (d : Dict) (k k2 : String) (v : JVal) (h : k ≠ k2) :
    dictGet (dictSet d k v) k2 = dictGet d k2 := by
  induction d with
  | nil => simp [dictSet, dictGet, if_neg h]
  | cons p rest ih =>
    obtain ⟨k0, v0⟩ := p
    by_cases hk : k0 = k
    · subst hk
      simp only [dictSet, if_pos rfl, dictGet]
      rw [if_neg h, if_neg h]
    · simp only [dictSet, if_neg hk, dictGet]
      by_cases h2 : k0 = k2
      · rw [if_pos h2, if_pos h2]
      · rw [if_neg h2, if_neg h2]
        exact ih

theorem fixKey_self (d : Dict) (k : String) :
    ∃ l, dictGet (fixKey d k) k = some (JVal.list l) := by
  unfold fixKey
  cases hl : dictGet d k with
  | none => exact ⟨[], dictGet_dictSet_same d k _⟩
  | some v =>
    cases v with
    | list l => exact ⟨l, hl⟩
    | nonlist => exact ⟨[], dictGet_dictSet_same d k _⟩

theorem fixKey_ne (d : Dict) (k k2 : String) (h : k ≠ k2) :
    dictGet (fixKey d k) k2 = dictGet d k2 := by
  unfold fixKey
  cases hl : dictGet d k with
  | none => exact dictGet_dictSet_ne d k k2 _ h
  | some v =>
    cases v with
    | list l => rfl
    | nonlist => exact dictGet_dictSet_ne d k k2 _ h

/-- C5: load_state is total (it never raises); on a missing or unparsable
state file it returns exactly the three empty buckets, and whatever it
returns binds each of the three required bucket keys to a list. -/
theorem c5_load_state_buckets :
    load_state none
      = [("new", JVal.list []), ("hot", JVal.list []), ("top", JVal.list [])]
    ∧ ∀ (d : Dict) (k : String), k ∈ ["new", "hot", "top"] →
      ∃ l, dictGet (load_state (some d)) k = some (JVal.list l) := by
  refine ⟨rfl, ?_⟩
  intro d k hk
  simp only [List.mem_cons, List.mem_singleton, List.not_mem_nil, or_false] at hk
  unfold load_state
  rcases hk with rfl | rfl | rfl
  · rw [fixKey_ne _ _ _ (by decide), fixKey_ne _ _ _ (by decide)]
    exact fixKey_self d "new"
  · rw [fixKey_ne _ _ _ (by decide)]
    exact fixKey_self _ "hot"
  · exact fixKey_self _ "top"

/-- C5 witness: loading a parsed dictionary that lacks the bucket keys
still yields a list under the key new. -/
theorem c5_witness :
    ∃ l, dictGet (load_state (some [("hot", JVal.nonlist)])) "new"
      = some (JVal.list l) :=
  c5_load_state_buckets.2 [("hot", JVal.nonlist)] "new" (by decide)

/-! ## Blocklist lemmas (claim C6) -/

theorem title_blocked_of_term (t term : String) (h1 : term ∈ BLOCKLIST_TERMS)
    (h2 : term.data <:+: (pyLower t).data) : title_blocked t = true := by
  simp only [title_blocked, List.any_eq_true, decide_eq_true_eq]
  exact ⟨term, h1, h2⟩

/-- C6: title blocking is the case-insensitive substring match against the
fixed blocklist (true exactly when the lowercased title contains a
blocklist term); a title containing LOLI in capitals is blocked exactly as
one containing loli; and an entry whose title is empty never ends in the
blocked-title branch of the entry loop. -/
theorem c6_title_blocking :
    (∀ t : String, title_blocked t = true ↔
        ∃ term ∈ BLOCKLIST_TERMS, term.data <:+: (pyLower t).data)
    ∧ (∀ s1 s2 : String,
        title_blocked (s1 ++ "LOLI" ++ s2) = title_blocked (s1 ++ "loli" ++ s2))
    ∧ ∀ (b : Bucket) (st : St) (m : Merged) (e : Entry), entry_title e = "" →
        (processEntry b st m e).2.2 ≠ Outcome.blockedTitle := by
  refine ⟨?_, ?_, ?_⟩
  · intro t
    simp [title_blocked, List.any_eq_true]
  · have hup : "LOLI".data.map Char.toLower = "loli".data := by decide
    have hlo : "loli".data.map Char.toLower = "loli".data := by decide
    have key : ∀ (s1 s2 mid : String), mid.data.map Char.toLower = "loli".data →
        title_blocked (s1 ++ mid ++ s2) = true := by
      intro s1 s2 mid hmid
      apply title_blocked_of_term _ "loli" (by decide)
      refine ⟨s1.data.map Char.toLower, s2.data.map Char.toLower, ?_⟩
      simp [pyLower, String.data_append, hmid]
    intro s1 s2
    rw [key s1 s2 _ hup, key s1 s2 _ hlo]
  · intro b st m e htitle
    simp only [processEntry]
    split
    · intro hcontra
      exact Outcome.noConfusion hcontra
    · have hcond : ¬ (entry_title e ≠ "" ∧ title_blocked (entry_title e)) := by
        simp [htitle]
      rw [if_neg hcond]
      split
      · intro hcontra
        exact Outcome.noConfusion hcontra
      · split <;> intro hcontra <;> exact Outcome.noConfusion hcontra

/-- C6 witness: an entry with no title is not skipped as blocked (here it
reaches the recorded branch). -/
theorem c6_witness :
    (processEntry .new ⟨[], [], []⟩ [] noTitleEntry).2.2 ≠ Outcome.blockedTitle :=
  c6_title_blocking.2.2 .new ⟨[], [], []⟩ [] noTitleEntry rfl

/-! ## Publisher retry lemmas (claim C8) -/

/-- C8: on a rate-limit response the publisher sleeps the parsed
retry-after duration (one time unit when the body does not parse) and
retries the same call; any run of rate limits followed by a success
delivers the batch exactly once, sleeping once per rate limit; a run of
rate limits followed by any other failure delivers nothing and stops; and
no response trace ever delivers a batch more than once. -/
theorem c8_rate_limit_retry :
    (∀ (w : ℚ) (rest : List Resp),
        discord_post_embeds (Resp.rateLimited (some w) :: rest)
          = (w :: (discord_post_embeds rest).1, (discord_post_embeds rest).2))
    ∧ (∀ rest : List Resp,
        discord_post_embeds (Resp.rateLimited none :: rest)
          = (1 :: (discord_post_embeds rest).1, (discord_post_embeds rest).2))
    ∧ (∀ (k : Nat) (ra : Option ℚ) (rest : List Resp),
        discord_post_embeds (List.replicate k (Resp.rateLimited ra) ++ Resp.ok :: rest)
          = (List.replicate k (ra.getD 1), 1))
    ∧ (∀ (k : Nat) (ra : Option ℚ) (rest : List Resp),
        discord_post_embeds
            (List.replicate k (Resp.rateLimited ra) ++ Resp.failure :: rest)
          = (List.replicate k (ra.getD 1), 0))
    ∧ ∀ tr : List Resp, (discord_post_embeds tr).2 ≤ 1 := by
  refine ⟨fun w rest => rfl, fun rest => rfl, ?_, ?_, ?_⟩
  · intro k ra rest
    induction k with
    | zero => simp [discord_post_embeds]
    | succ n ih =>
      rw [List.replicate_succ, List.cons_append]
      simp only [discord_post_embeds, ih, List.replicate_succ]
  · intro k ra rest
    induction k with
    | zero => simp [discord_post_embeds]
    | succ n ih =>
      rw [List.replicate_succ, List.cons_append]
      simp only [discord_post_embeds, ih, List.replicate_succ]
  · intro tr
    induction tr with
    | nil => simp [discord_post_embeds]
    | cons r rest ih =>
      cases r with
      | rateLimited ra => simpa [discord_post_embeds] using ih
      | ok => simp [discord_post_embeds]
      | failure => simp [discord_post_embeds]

/-! ## Configuration validation (claim C9) -/

/-- C9: with a malformed webhook URL, or with a well-formed webhook URL
but an empty subreddit, main aborts with the corresponding error line; the
result does not depend on the state file, the feeds or the webhook
responses, so no state is read or written and no feed is fetched. -/
theorem c9_config_abort :
    (∀ (cfg : Config) (s : Option Dict) (f : Bucket → List Entry)
        (r : Nat → List Resp),
        pyStartsWith cfg.webhook_url webhookUrlStart = false →
        main cfg s f r = RunOutcome.configError
          "ERROR: DISCORD_WEBHOOK_URL secret is missing or invalid.")
    ∧ ∀ (cfg : Config) (s : Option Dict) (f : Bucket → List Entry)
        (r : Nat → List Resp),
        pyStartsWith cfg.webhook_url webhookUrlStart = true → cfg.subreddit = "" →
        main cfg s f r = RunOutcome.configError "ERROR: SUBREDDIT secret is missing." := by
  constructor
  · intro cfg s f r h
    simp [main, h]
  · intro cfg s f r h1 h2
    simp [main, h1, h2]

/-- C9 witness: an empty webhook URL aborts the run with the webhook error
line, independently of state and feeds. -/
theorem c9_witness :
    main ⟨"pics", "", 30⟩ (some [("new", JVal.nonlist)]) (fun _ => [blockedEntry])
        (fun _ => [Resp.ok])
      = RunOutcome.configError
          "ERROR: DISCORD_WEBHOOK_URL secret is missing or invalid." :=
  c9_config_abort.1 ⟨"pics", "", 30⟩ _ _ _ (by decide)

/-! ## Deduplication (claim C3) -/

/-- First-occurrence deduplication, written independently of the
accumulator loop of the source: keep the head, drop its later duplicates,
recurse. -/
def dedupFirst : List String → List String
  | [] => []
  | x :: xs => x :: dedupFirst (xs.filter (fun y => decide (y ≠ x)))
termination_by l => l.length
decreasing_by
  simp only [List.length_cons]
  exact Nat.lt_succ_of_le (List.length_filter_le _ _)

theorem foldl_dedupStep (l : List String) : ∀ acc : List String,
    l.foldl dedupStep acc
      = acc ++ dedupFirst ((l.map normalize_url).filter (fun y => decide (y ∉ acc))) := by
  induction l with
  | nil => intro acc; simp [dedupFirst]
  | cons x xs ih =>
    intro acc
    have hstep : dedupStep acc x
        = if normalize_url x ∈ acc then acc else acc ++ [normalize_url x] := rfl
    simp only [List.foldl_cons, List.map_cons]
    by_cases hmem : normalize_url x ∈ acc
    · rw [hstep, if_pos hmem, List.filter_cons_of_neg (by simp [hmem])]
      exact ih acc
    · rw [hstep, if_neg hmem, List.filter_cons_of_pos (by simp [hmem]), ih]
      have hpt : ∀ a ∈ xs.map normalize_url,
          (decide (a ∉ acc ++ [normalize_url x]) : Bool)
            = (decide (a ≠ normalize_url x) && decide (a ∉ acc)) := by
        intro a _
        by_cases h1 : a = normalize_url x <;> by_cases h2 : a ∈ acc <;>
          simp [h1, h2, List.mem_append]
      have hfil : (xs.map normalize_url).filter
            (fun y => decide (y ∉ acc ++ [normalize_url x]))
          = ((xs.map normalize_url).filter (fun y => decide (y ∉ acc))).filter
              (fun y => decide (y ≠ normalize_url x)) := by
        rw [List.filter_filter]
        exact List.filter_congr hpt
      rw [hfil]
      simp [dedupFirst]

/-- Example entry: a non-image candidate ahead of an image URL that
carries a query string and a fragment. -/
def exampleQueryEntry : Entry :=
  { id := some "e1", link := none, title := some "scenery",
    media_content := some [⟨some "https://x/page.html"⟩],
    content := some [⟨some [Tag.img (some "https://x/img.jpg?width=100#frag")]⟩],
    summary := none }

/-- C3: pick_media_url returns the first candidate with an image
extension from the normalized first-occurrence deduplication of the
candidates gathered in priority order (media_content urls, then img src
and anchor href urls of the content body, then the same of the summary);
it returns none exactly when no deduplicated candidate qualifies; the
extension of the query-and-fragment example resolves to .jpg, and an entry
carrying that example url yields it. -/
theorem c3_pick_media_url (e : Entry) :
    pick_media_url e
      = (dedupFirst ((mediaUrls e ++ contentUrls e ++ summaryUrls e).map
          normalize_url)).find? (fun u => decide (guess_ext u ∈ IMAGE_EXTS))
    ∧ (pick_media_url e = none ↔
        ∀ u ∈ dedupFirst ((mediaUrls e ++ contentUrls e ++ summaryUrls e).map
          normalize_url), guess_ext u ∉ IMAGE_EXTS)
    ∧ guess_ext "https://x/img.jpg?width=100#frag" = ".jpg"
    ∧ pick_media_url exampleQueryEntry = some "https://x/img.jpg?width=100#frag" := by
  have h1 : pick_media_url e
      = (dedupFirst ((mediaUrls e ++ contentUrls e ++ summaryUrls e).map
          normalize_url)).find? (fun u => decide (guess_ext u ∈ IMAGE_EXTS)) := by
    simp only [pick_media_url]
    rw [foldl_dedupStep]
    rw [List.filter_eq_self.mpr (fun a _ => by simp)]
    simp
  refine ⟨h1, ?_, by decide, by decide⟩
  rw [h1, List.find?_eq_none]
  simp

/-! ## Batch partitioning (claims C7, C10) -/

/-- Partition of a list into consecutive chunks of ten, written
independently of the buffer loop of the source. -/
def chunks10 {α : Type} : List α → List (List α)
  | [] => []
  | x :: xs => (x :: xs).take 10 :: chunks10 ((x :: xs).drop 10)
termination_by l => l.length
decreasing_by
  simp only [List.length_drop, List.length_cons]
  omega

theorem chunks10_nil {α : Type} : chunks10 ([] : List α) = [] := by
  simp [chunks10]

theorem chunks10_cons_eq {α : Type} (l : List α) (h : l ≠ []) :
    chunks10 l = l.take 10 :: chunks10 (l.drop 10) := by
  obtain ⟨b, bs, rfl⟩ := List.exists_cons_of_ne_nil h
  simp [chunks10]

theorem chunks10_nil_iff {α : Type} (l : List α) : chunks10 l = [] ↔ l = [] := by
  constructor
  · intro h
    by_contra hne
    rw [chunks10_cons_eq l hne] at h
    exact List.noConfusion h
  · intro h
    rw [h, chunks10_nil]

/-- Recursion principle following the chunking: a property holds of every
list once it holds of the empty list and is preserved from the tail beyond
the first ten elements. -/
theorem chunks10_rec {α : Type} (motive : List α → Prop) (h1 : motive [])
    (h2 : ∀ l, l ≠ [] → motive (List.drop 10 l) → motive l) : ∀ l, motive l := by
  have key : ∀ (n : Nat) (l : List α), l.length ≤ n → motive l := by
    intro n
    induction n with
    | zero =>
      intro l hl
      have : l = [] := List.eq_nil_of_length_eq_zero (by omega)
      rwa [this]
    | succ n ih =>
      intro l hl
      by_cases hne : l = []
      · rwa [hne]
      · refine h2 l hne (ih _ ?_)
        have := List.length_pos.mpr hne
        simp only [List.length_drop]
        omega
  exact fun l => key l.length l le_rfl

theorem chunks10_flatten {α : Type} (l : List α) : (chunks10 l).flatten = l := by
  induction l using chunks10_rec with
  | h1 => rw [chunks10_nil]; rfl
  | h2 l hne ih =>
    rw [chunks10_cons_eq l hne]
    simp only [List.flatten_cons, ih, List.take_append_drop]

theorem chunks10_length {α : Type} (l : List α) :
    (chunks10 l).length = (l.length + 9) / 10 := by
  induction l using chunks10_rec with
  | h1 => rw [chunks10_nil]; simp
  | h2 l hne ih =>
    rw [chunks10_cons_eq l hne]
    simp only [List.length_cons, ih, List.length_drop]
    have := List.length_pos.mpr hne
    omega

theorem chunks10_sizes {α : Type} (l : List α) :
    ∀ b ∈ chunks10 l, b.length ≤ 10 ∧ b ≠ [] := by
  induction l using chunks10_rec with
  | h1 => rw [chunks10_nil]; intro b hb; exact absurd hb (List.not_mem_nil b)
  | h2 l hne ih =>
    rw [chunks10_cons_eq l hne]
    intro b hb
    rcases List.mem_cons.mp hb with rfl | hb2
    · refine ⟨by simp [List.length_take], ?_⟩
      have hpos := List.length_pos.mpr hne
      intro hcontra
      have hzero : (l.take 10).length = 0 := by rw [hcontra]; rfl
      simp only [List.length_take] at hzero
      omega
    · exact ih b hb2

theorem chunks10_front {α : Type} (l : List α) :
    ∀ i : Nat, i + 1 < (chunks10 l).length →
      ((chunks10 l)[i]?).map List.length = some 10 := by
  induction l using chunks10_rec with
  | h1 =>
    intro i h2
    rw [chunks10_nil] at h2
    exact absurd h2 (by simp)
  | h2 l hne ih =>
    intro i h2
    rw [chunks10_cons_eq l hne] at h2 ⊢
    match i with
    | 0 =>
      rw [List.getElem?_cons_zero]
      simp only [Option.map_some', Option.some.injEq, List.length_take]
      simp only [List.length_cons] at h2
      have hrest : chunks10 (l.drop 10) ≠ [] := by
        intro hc
        rw [hc] at h2
        simp at h2
      have hdrop : l.drop 10 ≠ [] := fun hc => hrest (by rw [hc, chunks10_nil])
      have hlen : 10 < l.length := by
        by_contra hc
        exact hdrop (List.drop_eq_nil_of_le (by omega))
      omega
    | j + 1 =>
      simp only [List.getElem?_cons_succ]
      simp only [List.length_cons] at h2
      exact ih j (by omega)

theorem chunks10_getLast {α : Type} (l : List α) : ∀ (h : chunks10 l ≠ []),
    ((chunks10 l).getLast h).length = l.length - 10 * ((chunks10 l).length - 1) := by
  induction l using chunks10_rec with
  | h1 =>
    intro h
    exact absurd chunks10_nil h
  | h2 l hne ih =>
    intro h
    by_cases hrest : chunks10 (l.drop 10) = []
    · have hdrop : l.drop 10 = [] := (chunks10_nil_iff _).mp hrest
      have hlen : l.length ≤ 10 := by
        have hd : (l.drop 10).length = l.length - 10 := List.length_drop _ _
        rw [hdrop] at hd
        simp only [List.length_nil] at hd
        omega
      have heq : chunks10 l = [l.take 10] := by
        rw [chunks10_cons_eq l hne, hrest]
      rw [List.getLast_congr h (by simp) heq, List.getLast_singleton]
      rw [heq, List.take_of_length_le hlen]
      simp only [List.length_cons, List.length_nil]
      omega
    · have heq : chunks10 l = l.take 10 :: chunks10 (l.drop 10) :=
        chunks10_cons_eq l hne
      rw [List.getLast_congr h (by simp) heq, List.getLast_cons hrest, ih hrest, heq]
      simp only [List.length_cons, List.length_drop]
      have hL := List.length_pos.mpr hrest
      omega

theorem batchGo_eq (es : List Embed) : ∀ (buf : List Embed) (sent : Nat),
    buf.length < EMBEDS_PER_MESSAGE →
    batchGo buf sent es = (chunks10 (buf ++ es), sent + buf.length + es.length) := by
  induction es with
  | nil =>
    intro buf sent h
    simp only [batchGo, List.append_nil, List.length_nil]
    by_cases hb : buf = []
    · subst hb
      simp [chunks10_nil]
    · rw [if_neg (by simpa [List.isEmpty_iff] using hb)]
      rw [chunks10_cons_eq buf hb]
      simp only [EMBEDS_PER_MESSAGE] at h
      rw [List.take_of_length_le (by omega), List.drop_eq_nil_of_le (by omega),
        chunks10_nil]
      simp
  | cons e rest ih =>
    intro buf sent h
    simp only [batchGo]
    simp only [EMBEDS_PER_MESSAGE] at h ⊢
    have hlen2 : (buf ++ [e]).length = buf.length + 1 := by simp
    have hsplit : buf ++ e :: rest = (buf ++ [e]) ++ rest := by
      rw [List.append_cons]
    by_cases hfull : 10 ≤ (buf ++ [e]).length
    · rw [if_pos hfull]
      rw [ih [] (sent + (buf ++ [e]).length) (by simp [EMBEDS_PER_MESSAGE])]
      rw [hsplit]
      have hne2 : (buf ++ [e]) ++ rest ≠ [] := by simp
      rw [chunks10_cons_eq _ hne2]
      have h10 : (10 : Nat) = (buf ++ [e]).length := by omega
      rw [h10, List.take_left, List.drop_left]
      simp only [List.nil_append, List.length_nil, List.length_cons, Prod.mk.injEq]
      exact ⟨by trivial, by omega⟩
    · rw [if_neg hfull]
      rw [ih (buf ++ [e]) sent (by simp only [EMBEDS_PER_MESSAGE]; omega)]
      rw [hsplit]
      simp only [List.length_cons, Prod.mk.injEq]
      exact ⟨by trivial, by simp only [hlen2]; omega⟩

/-- A well-formed configuration used by concrete runs. -/
def cfgOk : Config := ⟨"pics", "https://discord.com/api/webhooks/1/t", 30⟩

theorem validConfig_parts (cfg : Config) (h : validConfig cfg = true) :
    pyStartsWith cfg.webhook_url webhookUrlStart = true ∧ cfg.subreddit ≠ "" := by
  simpa [validConfig, Bool.and_eq_true] using h

theorem main_finished (cfg : Config) (stFile : Option Dict)
    (feeds : Bucket → List Entry) (resps : Nat → List Resp)
    (h : validConfig cfg = true) :
    main cfg stFile feeds resps
      = .finished (save_state (runBuckets (St.ofDict (load_state stFile)) feeds).1)
          (batchGo [] 0 ((runItems cfg stFile feeds).map
            (fun it => make_image_only_embed it.2))).1
          (countDelivered (batchGo [] 0 ((runItems cfg stFile feeds).map
            (fun it => make_image_only_embed it.2))).1 resps)
          (batchGo [] 0 ((runItems cfg stFile feeds).map
            (fun it => make_image_only_embed it.2))).2 := by
  obtain ⟨h1, h2⟩ := validConfig_parts cfg h
  simp only [main]
  rw [if_neg (by simp [h1]), if_neg h2]

theorem main_finished_items (cfg : Config) (stFile : Option Dict)
    (feeds : Bucket → List Entry) (resps : Nat → List Resp) (items : Merged)
    (h : validConfig cfg = true) (hi : runItems cfg stFile feeds = items) :
    main cfg stFile feeds resps
      = .finished (save_state (runBuckets (St.ofDict (load_state stFile)) feeds).1)
          (batchGo [] 0 (items.map (fun it => make_image_only_embed it.2))).1
          (countDelivered
            (batchGo [] 0 (items.map (fun it => make_image_only_embed it.2))).1 resps)
          (batchGo [] 0 (items.map (fun it => make_image_only_embed it.2))).2 := by
  rw [main_finished cfg stFile feeds resps h, hi]

/-- C7: for every run that passes the configuration check, the batches
handed to the publisher are exactly the consecutive chunks of ten of the
eligible items in item order, so the publisher is invoked a number of
times equal to the item count plus nine over ten (the ceiling of n over
ten); every chunk has at most ten embeds, every chunk before the last has
exactly ten, the last carries the remainder, and the concatenation of the
chunks restores the items in order; for twenty-three items the batch
sizes are exactly ten, ten and three. -/
theorem c7_batch_partition :
    (∀ (cfg : Config) (stFile : Option Dict) (feeds : Bucket → List Entry)
        (r : Nat → List Resp), validConfig cfg = true →
        (main cfg stFile feeds r).postedBatches
          = chunks10 ((runItems cfg stFile feeds).map (fun it => make_image_only_embed it.2))
        ∧ ((main cfg stFile feeds r).postedBatches).length
          = ((runItems cfg stFile feeds).length + 9) / 10)
    ∧ (∀ l : List Embed, (chunks10 l).length = (l.length + 9) / 10)
    ∧ (∀ l : List Embed, (chunks10 l).flatten = l)
    ∧ (∀ l : List Embed, ∀ b ∈ chunks10 l, b.length ≤ 10)
    ∧ (∀ (l : List Embed) (i : Nat), i + 1 < (chunks10 l).length →
        ((chunks10 l)[i]?).map List.length = some 10)
    ∧ (∀ (l : List Embed) (h : chunks10 l ≠ []),
        ((chunks10 l).getLast h).length = l.length - 10 * ((chunks10 l).length - 1))
    ∧ ((batchGo [] 0 (List.replicate 23 (make_image_only_embed "https://x/a.jpg"))).1).map
        List.length = [10, 10, 3] := by
  refine ⟨?_, chunks10_length, chunks10_flatten, fun l b hb => (chunks10_sizes l b hb).1,
    chunks10_front, chunks10_getLast, by decide⟩
  intro cfg stFile feeds r h
  rw [main_finished cfg stFile feeds r h]
  rw [batchGo_eq _ [] 0 (by simp [EMBEDS_PER_MESSAGE])]
  simp only [RunOutcome.postedBatches, List.nil_append]
  refine ⟨by trivial, ?_⟩
  rw [chunks10_length, List.length_map]

/-- C7 witness: a concretely configured run with no feed entries hands the
publisher the empty chunk list. -/
theorem c7_witness :
    (main cfgOk none (fun _ => []) (fun _ => [Resp.ok])).postedBatches
      = chunks10 ((runItems cfgOk none (fun _ => [])).map
          (fun it => make_image_only_embed it.2)) :=
  (c7_batch_partition.1 cfgOk none (fun _ => []) (fun _ => [Resp.ok]) (by decide)).1

/-- C10: for every run that passes the configuration check, the reported
sent counter equals the number of eligible items, that is the minimum of
the merged item count and the per-run maximum, and it does not depend on
the webhook responses: batches dropped by the publisher are still
counted. -/
theorem c10_sent_counts_all_batches :
    ∀ (cfg : Config) (stFile : Option Dict) (feeds : Bucket → List Entry)
      (r r2 : Nat → List Resp), validConfig cfg = true →
      (main cfg stFile feeds r).sentCount
          = min (runMerged stFile feeds).length cfg.max_per_run
      ∧ (main cfg stFile feeds r).sentCount = (main cfg stFile feeds r2).sentCount := by
  intro cfg stFile feeds r r2 h
  have hone : ∀ rr : Nat → List Resp, (main cfg stFile feeds rr).sentCount
      = min (runMerged stFile feeds).length cfg.max_per_run := by
    intro rr
    rw [main_finished cfg stFile feeds rr h]
    rw [batchGo_eq _ [] 0 (by simp [EMBEDS_PER_MESSAGE])]
    simp only [RunOutcome.sentCount, List.length_map, runItems, List.length_nil,
      List.length_take, inf_eq_min]
    omega
  exact ⟨hone r, (hone r).trans (hone r2).symm⟩

/-- C10 witness: with no entries the reported count is zero for failing
and succeeding webhook traces alike. -/
theorem c10_witness :
    (main cfgOk none (fun _ => []) (fun _ => [Resp.failure])).sentCount
      = min (runMerged none (fun _ => [])).length cfgOk.max_per_run
    ∧ (main cfgOk none (fun _ => []) (fun _ => [Resp.failure])).sentCount
      = (main cfgOk none (fun _ => []) (fun _ => [Resp.ok])).sentCount :=
  c10_sent_counts_all_batches cfgOk none (fun _ => [])
    (fun _ => [Resp.failure]) (fun _ => [Resp.ok]) (by decide)

/-! ## Run-level seen-list lemmas (claim C2) -/

theorem processEntry_state_cases (b : Bucket) (st : St) (m : Merged) (e : Entry) :
    (processEntry b st m e).1 = st ∨
      (processEntry b st m e).1 = st.set b (st.get b ++ [entry_uid e]) := by
  by_cases h : entry_uid e ∈ st.get b
  · left
    rw [processEntry_seen b st m e h]
  · right
    rw [processEntry_fresh_state b st m e h]

theorem processEntry_uid_mem (b : Bucket) (st : St) (m : Merged) (e : Entry) :
    entry_uid e ∈ ((processEntry b st m e).1).get b := by
  by_cases h : entry_uid e ∈ st.get b
  · rw [processEntry_seen b st m e h]
    exact h
  · rw [processEntry_fresh_state b st m e h, St.get_set_same]
    exact List.mem_append_right _ (List.mem_singleton_self _)

theorem processEntry_preserve (b b2 : Bucket) (st : St) (m : Merged) (e : Entry)
    (x : String) (h : x ∈ st.get b2) : x ∈ ((processEntry b st m e).1).get b2 := by
  rcases processEntry_state_cases b st m e with hc | hc
  · rw [hc]
    exact h
  · rw [hc]
    by_cases hb : b2 = b
    · subst hb
      rw [St.get_set_same]
      exact List.mem_append_left _ h
    · rw [St.get_set_other st b b2 _ hb]
      exact h

theorem processEntry_other (b b2 : Bucket) (st : St) (m : Merged) (e : Entry)
    (h : b2 ≠ b) : ((processEntry b st m e).1).get b2 = st.get b2 := by
  rcases processEntry_state_cases b st m e with hc | hc
  · rw [hc]
  · rw [hc, St.get_set_other st b b2 _ h]

theorem processEntry_len (b : Bucket) (st : St) (m : Merged) (e : Entry) :
    (((processEntry b st m e).1).get b).length ≤ (st.get b).length + 1 := by
  rcases processEntry_state_cases b st m e with hc | hc
  · rw [hc]
    omega
  · rw [hc, St.get_set_same, List.length_append, List.length_singleton]

theorem processBucket_nil (b : Bucket) (acc : St × Merged) :
    processBucket b acc [] = acc := rfl

theorem processBucket_cons (b : Bucket) (st : St) (m : Merged) (e : Entry)
    (es : List Entry) :
    processBucket b (st, m) (e :: es)
      = processBucket b ((processEntry b st m e).1, (processEntry b st m e).2.1) es := rfl

theorem processBucket_allSeen (b : Bucket) (es : List Entry) :
    ∀ (st : St) (m : Merged), (∀ e ∈ es, entry_uid e ∈ st.get b) →
      processBucket b (st, m) es = (st, m) := by
  induction es with
  | nil => intro st m _; rfl
  | cons e es ih =>
    intro st m h
    rw [processBucket_cons]
    rw [processEntry_seen b st m e (h e (List.mem_cons_self e es))]
    exact ih st m (fun e2 he2 => h e2 (List.mem_cons_of_mem e he2))

theorem processBucket_preserve (b b2 : Bucket) (es : List Entry) :
    ∀ (st : St) (m : Merged) (x : String), x ∈ st.get b2 →
      x ∈ ((processBucket b (st, m) es).1).get b2 := by
  induction es with
  | nil => intro st m x h; exact h
  | cons e es ih =>
    intro st m x h
    rw [processBucket_cons]
    exact ih _ _ x (processEntry_preserve b b2 st m e x h)

theorem processBucket_uid_mem (b : Bucket) (es : List Entry) :
    ∀ (st : St) (m : Merged), ∀ e ∈ es,
      entry_uid e ∈ ((processBucket b (st, m) es).1).get b := by
  induction es with
  | nil => intro st m e he; exact absurd he (List.not_mem_nil e)
  | cons e2 es ih =>
    intro st m e he
    rw [processBucket_cons]
    rcases List.mem_cons.mp he with rfl | he2
    · exact processBucket_preserve b b es _ _ _ (processEntry_uid_mem b st m e)
    · exact ih _ _ e he2

theorem processBucket_other (b b2 : Bucket) (h : b2 ≠ b) (es : List Entry) :
    ∀ (st : St) (m : Merged),
      ((processBucket b (st, m) es).1).get b2 = st.get b2 := by
  induction es with
  | nil => intro st m; rfl
  | cons e es ih =>
    intro st m
    rw [processBucket_cons, ih]
    exact processEntry_other b b2 st m e h

theorem processBucket_len (b : Bucket) (es : List Entry) :
    ∀ (st : St) (m : Merged),
      (((processBucket b (st, m) es).1).get b).length ≤ (st.get b).length + es.length := by
  induction es with
  | nil => intro st m; simp [processBucket_nil]
  | cons e es ih =>
    intro st m
    rw [processBucket_cons]
    have h1 := ih (processEntry b st m e).1 (processEntry b st m e).2.1
    have h2 := processEntry_len b st m e
    simp only [List.length_cons]
    omega

theorem orderEntries_mem (b : Bucket) (l : List Entry) (e : Entry) :
    e ∈ orderEntries b l ↔ e ∈ l := by
  unfold orderEntries
  split <;> simp

theorem orderEntries_length (b : Bucket) (l : List Entry) :
    (orderEntries b l).length = l.length := by
  unfold orderEntries
  split <;> simp

theorem runBuckets_len (st : St) (feeds : Bucket → List Entry) (b : Bucket) :
    (((runBuckets st feeds).1).get b).length ≤ (st.get b).length + (feeds b).length := by
  unfold runBuckets
  cases b with
  | new =>
    rw [processBucket_other .top .new (by decide), processBucket_other .hot .new (by decide)]
    have h1 := processBucket_len .new (orderEntries .new (feeds .new)) st []
    rw [orderEntries_length] at h1
    exact h1
  | hot =>
    rw [processBucket_other .top .hot (by decide)]
    have h1 := processBucket_len .hot (orderEntries .hot (feeds .hot))
      (processBucket .new (st, []) (orderEntries .new (feeds .new))).1
      (processBucket .new (st, []) (orderEntries .new (feeds .new))).2
    rw [orderEntries_length, processBucket_other .new .hot (by decide)] at h1
    exact h1
  | top =>
    have h1 := processBucket_len .top (orderEntries .top (feeds .top))
      (processBucket .hot (processBucket .new (st, []) (orderEntries .new (feeds .new)))
        (orderEntries .hot (feeds .hot))).1
      (processBucket .hot (processBucket .new (st, []) (orderEntries .new (feeds .new)))
        (orderEntries .hot (feeds .hot))).2
    rw [orderEntries_length, processBucket_other .hot .top (by decide),
      processBucket_other .new .top (by decide)] at h1
    exact h1

theorem runBuckets_mem (st : St) (feeds : Bucket → List Entry) (b : Bucket) :
    ∀ e ∈ feeds b, entry_uid e ∈ ((runBuckets st feeds).1).get b := by
  intro e he
  have he2 : e ∈ orderEntries b (feeds b) := (orderEntries_mem b (feeds b) e).mpr he
  unfold runBuckets
  cases b with
  | new =>
    apply processBucket_preserve .top .new
    apply processBucket_preserve .hot .new
    exact processBucket_uid_mem .new _ st [] e he2
  | hot =>
    apply processBucket_preserve .top .hot
    exact processBucket_uid_mem .hot _ _ _ e he2
  | top =>
    exact processBucket_uid_mem .top _ _ _ e he2

theorem runBuckets_allSeen (st : St) (feeds : Bucket → List Entry)
    (h : ∀ b, ∀ e ∈ feeds b, entry_uid e ∈ st.get b) :
    runBuckets st feeds = (st, []) := by
  unfold runBuckets
  rw [processBucket_allSeen .new _ st []
    (fun e he => h .new e ((orderEntries_mem _ _ _).mp he))]
  rw [processBucket_allSeen .hot _ st []
    (fun e he => h .hot e ((orderEntries_mem _ _ _).mp he))]
  rw [processBucket_allSeen .top _ st []
    (fun e he => h .top e ((orderEntries_mem _ _ _).mp he))]

theorem lastSlice_of_le {α : Type} (n : Nat) (l : List α) (h : l.length ≤ n) :
    lastSlice n l = l := by
  unfold lastSlice
  rw [Nat.sub_eq_zero_of_le h, List.drop_zero]

theorem save_state_id (st : St) (h : ∀ b, (st.get b).length ≤ 4000) :
    save_state st = st := by
  have hn := h .new
  have hh := h .hot
  have ht := h .top
  simp only [St.get] at hn hh ht
  unfold save_state
  rw [lastSlice_of_le _ _ hn, lastSlice_of_le _ _ hh, lastSlice_of_le _ _ ht]

theorem ofDict_toDict_roundtrip (s : St) :
    St.ofDict (load_state (some (St.toDict s))) = s := rfl

/-- The feeds of the amended-claim witness: one fresh entry in the hot
bucket. -/
def smallFeeds : Bucket → List Entry
  | .hot => [noTitleEntry]
  | _ => []

/-- C2 amended: an identifier already present in its bucket seen list is
skipped without title filtering or media extraction (the state and the
merged mapping are unchanged and the branch taken is the already-seen
one); and a second run over the same feed content starting from the state
saved by the first posts zero items, PROVIDED each bucket stays within the
4000-identifier cap of save_state (initial seen length plus feed length at
most 4000), so that the save truncates nothing.  Without that proviso the
claim fails, see the counterexample with 4001 entries. -/
theorem c2_seen_skip_and_bounded_idempotence :
    (∀ (b : Bucket) (st : St) (m : Merged) (e : Entry),
        entry_uid e ∈ st.get b → processEntry b st m e = (st, m, Outcome.alreadySeen))
    ∧ ∀ (cfg : Config) (stFile : Option Dict) (feeds : Bucket → List Entry)
        (r1 r2 : Nat → List Resp),
        validConfig cfg = true →
        (∀ b, ((St.ofDict (load_state stFile)).get b).length + (feeds b).length ≤ 4000) →
        (main cfg (some ((main cfg stFile feeds r1).savedSt.toDict)) feeds r2).sentCount = 0
        ∧ (main cfg (some ((main cfg stFile feeds r1).savedSt.toDict)) feeds r2).postedBatches
            = [] := by
  refine ⟨processEntry_seen, ?_⟩
  intro cfg stFile feeds r1 r2 hcfg hsize
  have hsave : save_state (runBuckets (St.ofDict (load_state stFile)) feeds).1
      = (runBuckets (St.ofDict (load_state stFile)) feeds).1 := by
    apply save_state_id
    intro b
    have h1 := runBuckets_len (St.ofDict (load_state stFile)) feeds b
    have h2 := hsize b
    omega
  have hsaved : (main cfg stFile feeds r1).savedSt
      = (runBuckets (St.ofDict (load_state stFile)) feeds).1 := by
    rw [main_finished cfg stFile feeds r1 hcfg]
    simp only [RunOutcome.savedSt]
    exact hsave
  have hload : St.ofDict (load_state (some ((main cfg stFile feeds r1).savedSt.toDict)))
      = (runBuckets (St.ofDict (load_state stFile)) feeds).1 := by
    rw [hsaved, ofDict_toDict_roundtrip]
  have hrun2 : runBuckets ((runBuckets (St.ofDict (load_state stFile)) feeds).1) feeds
      = ((runBuckets (St.ofDict (load_state stFile)) feeds).1, []) :=
    runBuckets_allSeen _ feeds
      (fun b => runBuckets_mem (St.ofDict (load_state stFile)) feeds b)
  have hmerged : runMerged (some ((main cfg stFile feeds r1).savedSt.toDict)) feeds = [] := by
    unfold runMerged
    rw [hload, hrun2]
  have hitems : runItems cfg (some ((main cfg stFile feeds r1).savedSt.toDict)) feeds = [] := by
    unfold runItems
    rw [hmerged, List.take_nil]
  constructor
  · rw [main_finished cfg _ feeds r2 hcfg, hitems]
    rfl
  · rw [main_finished cfg _ feeds r2 hcfg, hitems]
    rfl

/-- C2 witness: a seen identifier is skipped unchanged, and a bounded
two-run scenario (one hot entry) posts zero items on its second run. -/
theorem c2_witness :
    processEntry .hot ⟨[], ["p2"], []⟩ [] noTitleEntry
        = (⟨[], ["p2"], []⟩, [], Outcome.alreadySeen)
    ∧ (main cfgOk (some ((main cfgOk none smallFeeds (fun _ => [Resp.ok])).savedSt.toDict))
          smallFeeds (fun _ => [Resp.ok])).sentCount = 0 := by
  constructor
  · exact c2_seen_skip_and_bounded_idempotence.1 .hot ⟨[], ["p2"], []⟩ [] noTitleEntry
      (by decide)
  · exact (c2_seen_skip_and_bounded_idempotence.2 cfgOk none smallFeeds
      (fun _ => [Resp.ok]) (fun _ => [Resp.ok]) (by decide)
      (by intro b; cases b <;> decide)).1

/-! ## The 4001-entry counterexample to unconditional idempotence -/

/-- Distinct nonempty identifiers: i plus one repetitions of the letter
a. -/
def uidStr (i : Nat) : String := ⟨List.replicate (i + 1) 'a'⟩

/-- A fresh entry with identifier uidStr i and one qualifying media
url. -/
def mkE (i : Nat) : Entry :=
  { id := some (uidStr i), link := none, title := none,
    media_content := some [⟨some "https://x/a.jpg"⟩], content := none,
    summary := none }

/-- Feeds delivering 4001 distinct entries in the hot bucket. -/
def ceFeeds : Bucket → List Entry
  | .hot => (List.range' 0 4001).map mkE
  | _ => []

def ceResps : Nat → List Resp := fun _ => [.ok]

/-- The state the first counterexample run saves: the truncation has
dropped the first hot identifier. -/
def ceSaved : St := ⟨[], (List.range' 1 4000).map uidStr, []⟩

theorem uidStr_ne_empty (i : Nat) : uidStr i ≠ "" := by
  intro h
  have h2 : List.replicate (i + 1) 'a' = ([] : List Char) := congrArg String.data h
  rw [List.replicate_succ] at h2
  exact List.noConfusion h2

theorem uidStr_inj {i j : Nat} (h : uidStr i = uidStr j) : i = j := by
  have h2 : List.replicate (i + 1) 'a' = List.replicate (j + 1) 'a' :=
    congrArg String.data h
  have h3 := congrArg List.length h2
  simp only [List.length_replicate] at h3
  omega

theorem entry_uid_mkE (i : Nat) : entry_uid (mkE i) = uidStr i := by
  simp only [entry_uid, mkE, pyTruthy]
  rw [if_neg (uidStr_ne_empty i)]

theorem entry_title_mkE (i : Nat) : entry_title (mkE i) = "" := rfl

theorem pick_mkE (i : Nat) : pick_media_url (mkE i) = some "https://x/a.jpg" := rfl

theorem processEntry_mkE_fresh (b : Bucket) (st : St) (m : Merged) (i : Nat)
    (h1 : uidStr i ∉ st.get b) (h2 : uidStr i ∉ m.map Prod.fst) :
    processEntry b st m (mkE i)
      = (st.set b (st.get b ++ [uidStr i]), m ++ [(uidStr i, "https://x/a.jpg")],
         .recorded) := by
  simp only [processEntry, entry_uid_mkE, entry_title_mkE, pick_mkE]
  rw [if_neg h1, if_neg (by simp), if_neg h2]

theorem processBucket_mkE_fresh (b : Bucket) (k : Nat) :
    ∀ (a : Nat) (st : St) (m : Merged),
      (∀ j, a ≤ j → uidStr j ∉ st.get b) →
      (∀ j, a ≤ j → uidStr j ∉ m.map Prod.fst) →
      processBucket b (st, m) ((List.range' a k).map mkE)
        = (st.set b (st.get b ++ (List.range' a k).map uidStr),
           m ++ (List.range' a k).map (fun i => (uidStr i, "https://x/a.jpg"))) := by
  induction k with
  | zero =>
    intro a st m _ _
    rw [show List.range' a 0 = [] from rfl]
    simp only [List.map_nil, List.append_nil, processBucket_nil, St.set_get_self]
  | succ n ih =>
    intro a st m hs hm
    rw [List.range'_succ, List.map_cons, processBucket_cons]
    rw [processEntry_mkE_fresh b st m a (hs a le_rfl) (hm a le_rfl)]
    dsimp only
    have hs2 : ∀ j, a + 1 ≤ j → uidStr j ∉ (st.set b (st.get b ++ [uidStr a])).get b := by
      intro j hj hmem
      rw [St.get_set_same] at hmem
      rcases List.mem_append.mp hmem with hmem2 | hmem2
      · exact hs j (by omega) hmem2
      · rw [List.mem_singleton] at hmem2
        have := uidStr_inj hmem2
        omega
    have hm2 : ∀ j, a + 1 ≤ j →
        uidStr j ∉ (m ++ [(uidStr a, "https://x/a.jpg")]).map Prod.fst := by
      intro j hj hmem
      rw [List.map_append] at hmem
      rcases List.mem_append.mp hmem with hmem2 | hmem2
      · exact hm j (by omega) hmem2
      · rw [show ([(uidStr a, "https://x/a.jpg")].map Prod.fst) = [uidStr a] from rfl,
          List.mem_singleton] at hmem2
        have := uidStr_inj hmem2
        omega
    rw [ih (a + 1) _ _ hs2 hm2]
    rw [St.get_set_same, St.set_set, List.append_assoc, List.singleton_append]
    rw [List.append_assoc, List.singleton_append]
    simp only [List.map_cons]

theorem runMerged_eq (stFile : Option Dict) (feeds : Bucket → List Entry) :
    runMerged stFile feeds = (runBuckets (St.ofDict (load_state stFile)) feeds).2 := rfl

theorem runItems_eq (cfg : Config) (stFile : Option Dict) (feeds : Bucket → List Entry) :
    runItems cfg stFile feeds = (runMerged stFile feeds).take cfg.max_per_run := rfl

theorem range'_4001_split : List.range' 0 4001 = 0 :: List.range' 1 4000 :=
  List.range'_succ 0 4000 1

theorem first_run_saved : (main cfgOk none ceFeeds ceResps).savedSt = ceSaved := by
  rw [main_finished cfgOk none ceFeeds ceResps (by decide)]
  simp only [RunOutcome.savedSt]
  have hstage : runBuckets (St.ofDict (load_state none)) ceFeeds
      = (⟨[], (List.range' 0 4001).map uidStr, []⟩,
         (List.range' 0 4001).map (fun i => (uidStr i, "https://x/a.jpg"))) := by
    unfold runBuckets
    rw [show orderEntries .new (ceFeeds .new) = [] from rfl]
    rw [show orderEntries .top (ceFeeds .top) = [] from rfl]
    rw [show orderEntries .hot (ceFeeds .hot) = (List.range' 0 4001).map mkE from rfl]
    rw [show St.ofDict (load_state none) = (⟨[], [], []⟩ : St) from rfl]
    simp only [processBucket_nil]
    rw [processBucket_mkE_fresh .hot 4001 0 ⟨[], [], []⟩ []
      (fun j _ hmem => absurd hmem (List.not_mem_nil _))
      (fun j _ hmem => absurd hmem (List.not_mem_nil _))]
    rfl
  rw [hstage]
  have hslice : lastSlice 4000 ((List.range' 0 4001).map uidStr)
      = (List.range' 1 4000).map uidStr := by
    unfold lastSlice
    rw [List.length_map, List.length_range']
    rw [show (4001 : Nat) - 4000 = 1 from rfl]
    rw [range'_4001_split, List.map_cons, List.drop_one]
    rfl
  show save_state ⟨[], (List.range' 0 4001).map uidStr, []⟩ = ceSaved
  unfold save_state ceSaved
  dsimp only
  rw [hslice]
  simp [lastSlice]

theorem second_run_posts :
    (main cfgOk (some ceSaved.toDict) ceFeeds ceResps).sentCount = 1 := by
  have hmem0 : uidStr 0 ∉ ceSaved.get .hot := by
    intro hmem
    rcases List.mem_map.mp hmem with ⟨j, hj, hje⟩
    have hj0 := uidStr_inj hje
    have hj2 := List.mem_range'_1.mp hj
    omega
  have hrest : ∀ e ∈ (List.range' 1 4000).map mkE,
      entry_uid e ∈ (ceSaved.set .hot (ceSaved.get .hot ++ [uidStr 0])).get .hot := by
    intro e he
    rcases List.mem_map.mp he with ⟨j, hj, rfl⟩
    rw [entry_uid_mkE, St.get_set_same]
    exact List.mem_append_left _ (List.mem_map.mpr ⟨j, hj, rfl⟩)
  have hbuckets : runBuckets ceSaved ceFeeds
      = (ceSaved.set .hot (ceSaved.get .hot ++ [uidStr 0]),
         [(uidStr 0, "https://x/a.jpg")]) := by
    unfold runBuckets
    rw [show orderEntries .new (ceFeeds .new) = [] from rfl]
    rw [show orderEntries .top (ceFeeds .top) = [] from rfl]
    rw [show orderEntries .hot (ceFeeds .hot) = (List.range' 0 4001).map mkE from rfl]
    simp only [processBucket_nil]
    rw [range'_4001_split, List.map_cons, processBucket_cons]
    rw [processEntry_mkE_fresh .hot ceSaved [] 0 hmem0 (by simp)]
    dsimp only
    rw [List.nil_append]
    rw [processBucket_allSeen .hot _ _ _ hrest]
  have hload : St.ofDict (load_state (some ceSaved.toDict)) = ceSaved :=
    ofDict_toDict_roundtrip ceSaved
  have hmerged : runMerged (some ceSaved.toDict) ceFeeds
      = [(uidStr 0, "https://x/a.jpg")] :=
    (runMerged_eq _ _).trans (by rw [hload, hbuckets])
  have hitems : runItems cfgOk (some ceSaved.toDict) ceFeeds
      = [(uidStr 0, "https://x/a.jpg")] :=
    (runItems_eq _ _ _).trans (by rw [hmerged]; rfl)
  rw [main_finished_items cfgOk _ ceFeeds ceResps [(uidStr 0, "https://x/a.jpg")]
    (by decide) hitems]
  rfl

/-- C2 counterexample: with 4001 fresh hot entries, the first run saves a
truncated seen list, and the second run, started from exactly the state
the first run saved, posts one item rather than zero. -/
theorem c2_counterexample :
    (main cfgOk
        (some ((main cfgOk none ceFeeds ceResps).savedSt.toDict)) ceFeeds ceResps).sentCount
      = 1 := by
  rw [first_run_saved]
  exact second_run_posts

end RssBot
